import Mathlib

/-!
Verification development for the TACL VS Code extension
(`src/server/src/server.ts` and `src/client/src/extension.ts`).

The TypeScript sources are shallowly embedded:

* Document text is modelled as `List Char`.  The server reads the full
  document text and scans it with the JavaScript regular expression
  `/\b[A-Z]{2,}\b/g`; positions in diagnostics are produced by the
  text-document library's `positionAt` (an injective conversion from a
  character offset to a line/column pair), so ranges are modelled here by
  their underlying start/end offsets.
* The regex scan is modelled by `execFromFuel` below, which mirrors the
  `pattern.exec` loop: from the current `lastIndex` the engine finds the
  leftmost match position and then resumes searching after the match.
  A match of `\b[A-Z]{2,}\b` at position `i` is exactly: the greedy run of
  uppercase letters starting at `i` has length at least 2, the previous
  character (if any) is not a word character, and the character following
  the run (if any) is not a word character.  (Backtracking can never give a
  shorter match: shortening the greedy run leaves an uppercase — hence
  word — character right after the candidate match, so the trailing `\b`
  fails.)  The `fuel` argument is an embedding device making the scan
  structurally recursive; `text.length + 1` steps always suffice because
  the scan position strictly increases.
* Asynchronous handlers become pure functions; the two static JSON tables
  (`keyword.json`, `hover.json`) are not part of the sources, so the
  handlers that consult them are parameterised by the table contents.
-/

/-- JavaScript word character class `\w` = `[A-Za-z0-9_]`, used by the
word-boundary assertion `\b` of the validator's regex. -/
def isWordChar (c : Char) : Bool :=
  (decide ('A' ≤ c) && decide (c ≤ 'Z')) ||
  (decide ('a' ≤ c) && decide (c ≤ 'z')) ||
  (decide ('0' ≤ c) && decide (c ≤ '9')) ||
  (c == '_')

/-- The character class `[A-Z]` of the validator's regex. -/
def isUpperChar (c : Char) : Bool :=
  decide ('A' ≤ c) && decide (c ≤ 'Z')

/-- Length of the greedy run of `[A-Z]` characters at the head of a list:
how many characters `[A-Z]{2,}` consumes (greedily) from this suffix. -/
def upperRunLen : List Char → Nat
  | [] => 0
  | c :: cs => if isUpperChar c then upperRunLen cs + 1 else 0

/-- Character of the text at offset `i`; out-of-range reads yield a space,
which is neither a word character nor uppercase (matching the regex
semantics at the ends of the string, where `\b` compares against
"no character"). -/
def charAt (text : List Char) (i : Nat) : Char :=
  text.getD i ' '

/-- Attempt of the regex `\b[A-Z]{2,}\b` at exactly position `i` of `text`:
returns the match length (the greedy uppercase run) or `none`. -/
def tryMatchAt (text : List Char) (i : Nat) : Option Nat :=
  let u := upperRunLen (text.drop i)
  if (decide (i = 0) || !isWordChar (charAt text (i - 1))) &&
     decide (2 ≤ u) &&
     !isWordChar (charAt text (i + u)) then
    some u
  else
    none

/-- The `pattern.exec` loop of `validateTaclDocument`: starting from
position `pos` (the regex `lastIndex`), find the leftmost match, record
`(index, length)`, and resume after it; stop when the end of the text is
passed.  `fuel` only bounds the recursion (see the file header). -/
def execFromFuel (text : List Char) : Nat → Nat → List (Nat × Nat)
  | 0, _ => []
  | fuel + 1, pos =>
    match tryMatchAt text pos with
    | some u => (pos, u) :: execFromFuel text fuel (pos + u)
    | none => if pos < text.length then execFromFuel text fuel (pos + 1) else []

/-- All matches of `/\b[A-Z]{2,}\b/g` over `text`, as produced by the
repeated `pattern.exec` calls in `validateTaclDocument`. -/
def regexExecAll (text : List Char) : List (Nat × Nat) :=
  execFromFuel text (text.length + 1) 0

/-- `DiagnosticSeverity` of the language-server protocol (the source
imports it from `vscode-languageserver/node`). -/
inductive DiagnosticSeverity where
  | Error
  | Warning
  | Information
  | Hint
deriving DecidableEq, Repr

/-- One entry of a diagnostic's `relatedInformation`: a location
(document uri plus range, as offsets) and a message. -/
structure RelatedInformation where
  uri : String
  rangeStart : Nat
  rangeEnd : Nat
  message : String
deriving DecidableEq, Repr

/-- A diagnostic as built by `validateTaclDocument`; the range is
modelled by the start and end character offsets that the source passes to
`positionAt`. -/
structure Diagnostic where
  severity : DiagnosticSeverity
  rangeStart : Nat
  rangeEnd : Nat
  message : String
  source : String
  relatedInformation : Option (List RelatedInformation)
deriving DecidableEq, Repr

/-- The `ExampleSettings` interface of the server: the cap on the number
of diagnostics per validation pass (a JavaScript number, modelled as an
integer). -/
structure ExampleSettings where
  maxNumberOfProblems : Int
deriving DecidableEq, Repr

/-- `defaultSettings` of the server: `{ maxNumberOfProblems: 1000 }`. -/
def defaultSettings : ExampleSettings := ⟨1000⟩

/-- The global-settings branch of `connection.onDidChangeConfiguration`:
`globalSettings = change.settings.languageServerExample || defaultSettings`;
a missing (falsy) incoming value falls back to `defaultSettings`.  The
initial value of `globalSettings` is likewise `defaultSettings`. -/
def updateGlobalSettings (incoming : Option ExampleSettings) : ExampleSettings :=
  incoming.getD defaultSettings

/-- `getDocumentSettings`: without the configuration capability the
global settings are returned; otherwise the per-document cache is
consulted and, on a miss, the workspace configuration (`fetched`, the
resolved value of `connection.workspace.getConfiguration`) is used. -/
def getDocumentSettings (hasConfigurationCapability : Bool)
    (globalSettings : ExampleSettings) (cached : Option ExampleSettings)
    (fetched : ExampleSettings) : ExampleSettings :=
  if !hasConfigurationCapability then globalSettings
  else cached.getD fetched

/-- The diagnostic built in the body of the validator's `while` loop for a
match `m = (index, length)`: severity Warning, range spanning the match,
the template-literal message around the matched token `m[0]`, source
`"ex"`, and (when the client capability is present) the two fixed
related-information notes. -/
def mkDiagnostic (hasRelatedInfo : Bool) (uri : String) (text : List Char)
    (m : Nat × Nat) : Diagnostic :=
  let token : String := String.mk ((text.drop m.1).take m.2)
  { severity := DiagnosticSeverity.Warning
    rangeStart := m.1
    rangeEnd := m.1 + m.2
    message := token ++ " is all uppercase. Can you please fix that"
    source := "ex"
    relatedInformation :=
      if hasRelatedInfo then
        some [⟨uri, m.1, m.1 + m.2, "Spelling matters"⟩,
              ⟨uri, m.1, m.1 + m.2, "Particularly for names"⟩]
      else none }

/-- The validator's `while ((m = pattern.exec(text)) && problems <
settings.maxNumberOfProblems)` loop, with the match stream made explicit:
`problems` counts the emitted diagnostics, and the loop exits (dropping
the remaining matches) as soon as the cap is reached. -/
def diagnosticsLoop (hasRelatedInfo : Bool) (uri : String) (text : List Char)
    (cap : Int) : Int → List (Nat × Nat) → List Diagnostic
  | _, [] => []
  | problems, m :: ms =>
    if problems < cap then
      mkDiagnostic hasRelatedInfo uri text m ::
        diagnosticsLoop hasRelatedInfo uri text cap (problems + 1) ms
    else []

/-- `validateTaclDocument`: scan the document text with
`/\b[A-Z]{2,}\b/g` and turn the matches, up to the settings cap, into
diagnostics.  (The source then sends the list over the connection; the
produced list itself is the object of the claims.) -/
def validateTaclDocument (hasRelatedInfo : Bool) (uri : String)
    (settings : ExampleSettings) (text : List Char) : List Diagnostic :=
  diagnosticsLoop hasRelatedInfo uri text settings.maxNumberOfProblems 0
    (regexExecAll text)

/-- Specification-side description of a reportable token (from the spec's
words): a run of two-or-more uppercase letters occupying `[i, i+len)`,
whose left neighbour is the start of the text or a non-word character and
whose right neighbour is the end of the text or a non-word character
(hence the run is maximal and bounded by word boundaries). -/
def specIsMatch (text : List Char) (i len : Nat) : Prop :=
  2 ≤ len ∧
  i + len ≤ text.length ∧
  (∀ j, j < len → isUpperChar (charAt text (i + j)) = true) ∧
  (i = 0 ∨ isWordChar (charAt text (i - 1)) = false) ∧
  (i + len = text.length ∨ isWordChar (charAt text (i + len)) = false)

instance (text : List Char) (i len : Nat) : Decidable (specIsMatch text i len) := by
  unfold specIsMatch
  infer_instance

theorem isWordChar_of_isUpperChar {c : Char} (h : isUpperChar c = true) :
    isWordChar c = true := by
  simp only [isUpperChar, Bool.and_eq_true, decide_eq_true_eq] at h
  simp only [isWordChar, Bool.or_eq_true, Bool.and_eq_true, decide_eq_true_eq]
  exact Or.inl (Or.inl (Or.inl h))

theorem upperRunLen_le (l : List Char) : upperRunLen l ≤ l.length := by
  induction l with
  | nil => simp [upperRunLen]
  | cons c cs ih => by_cases h : isUpperChar c <;> simp [upperRunLen, h] <;> omega

theorem upperRunLen_upper (l : List Char) :
    ∀ j, j < upperRunLen l → isUpperChar (charAt l j) = true := by
  induction l with
  | nil => simp [upperRunLen]
  | cons c cs ih =>
    intro j hj
    by_cases h : isUpperChar c
    · cases j with
      | zero => simpa [charAt] using h
      | succ k =>
        have hk : k < upperRunLen cs := by simp [upperRunLen, h] at hj; omega
        simpa [charAt] using ih k hk
    · simp [upperRunLen, h] at hj

theorem upperRunLen_end (l : List Char) :
    isUpperChar (charAt l (upperRunLen l)) = false := by
  induction l with
  | nil => decide
  | cons c cs ih =>
    by_cases h : isUpperChar c
    · simpa [upperRunLen, h, charAt] using ih
    · simpa [upperRunLen, h, charAt] using h

theorem upperRunLen_eq (l : List Char) (len : Nat)
    (h1 : ∀ j, j < len → isUpperChar (charAt l j) = true)
    (h2 : isUpperChar (charAt l len) = false) : upperRunLen l = len := by
  induction l generalizing len with
  | nil =>
    cases len with
    | zero => simp [upperRunLen]
    | succ k =>
      have := h1 0 (by omega)
      simp only [charAt, List.getD_nil] at this
      exact absurd this (by decide)
  | cons c cs ih =>
    cases len with
    | zero =>
      simp only [charAt, List.getD_cons_zero] at h2
      simp [upperRunLen, h2]
    | succ k =>
      have hc : isUpperChar c = true := by
        simpa [charAt] using h1 0 (by omega)
      have hrec : upperRunLen cs = k := by
        apply ih
        · intro j hj
          simpa [charAt] using h1 (j + 1) (by omega)
        · simpa [charAt] using h2
      simp [upperRunLen, hc, hrec]

theorem charAt_drop (text : List Char) (i j : Nat) :
    charAt (text.drop i) j = charAt text (i + j) := by
  simp [charAt, List.getD_eq_getElem?_getD, List.getElem?_drop]

theorem tryMatchAt_eq_some_iff (text : List Char) (i len : Nat) :
    tryMatchAt text i = some len ↔ specIsMatch text i len := by
  constructor
  · intro h
    simp only [tryMatchAt] at h
    split at h
    case isFalse => exact absurd h (by simp)
    case isTrue hcond =>
      injection h with h'
      subst h'
      simp only [Bool.and_eq_true, Bool.or_eq_true, decide_eq_true_eq,
        Bool.not_eq_true'] at hcond
      obtain ⟨⟨hb, h2⟩, ha⟩ := hcond
      have hle' : upperRunLen (text.drop i) ≤ text.length - i := by
        have := upperRunLen_le (text.drop i)
        simpa using this
      refine ⟨h2, by omega, ?_, ?_, ?_⟩
      · intro j hj
        have := upperRunLen_upper (text.drop i) j hj
        rwa [charAt_drop] at this
      · rcases hb with hb | hb
        · exact Or.inl hb
        · exact Or.inr hb
      · exact Or.inr ha
  · intro hs
    obtain ⟨h2, hle, hup, hb, ha⟩ := hs
    have hafter : isUpperChar (charAt text (i + len)) = false := by
      rcases ha with ha | ha
      · have : charAt text (i + len) = ' ' := by
          simp [charAt, List.getD_eq_getElem?_getD, List.getElem?_eq_none, ha.ge]
        rw [this]; decide
      · by_contra hcon
        simp only [Bool.not_eq_false] at hcon
        rw [isWordChar_of_isUpperChar hcon] at ha
        exact absurd ha (by simp)
    have hu : upperRunLen (text.drop i) = len := by
      apply upperRunLen_eq
      · intro j hj
        rw [charAt_drop]
        exact hup j hj
      · rw [charAt_drop]
        exact hafter
    have hword : isWordChar (charAt text (i + len)) = false := by
      rcases ha with ha | ha
      · have : charAt text (i + len) = ' ' := by
          simp [charAt, List.getD_eq_getElem?_getD, List.getElem?_eq_none, ha.ge]
        rw [this]; decide
      · exact ha
    simp only [tryMatchAt, hu]
    have hbefore : (decide (i = 0) || !isWordChar (charAt text (i - 1))) = true := by
      rcases hb with hb | hb
      · simp [hb]
      · simp [hb]
    rw [if_pos]
    rw [hbefore, hword]
    simp [h2]

theorem tryMatchAt_none_of_inside (text : List Char) (i u j : Nat)
    (h : tryMatchAt text i = some u) (h1 : i < j) (h2 : j < i + u) :
    tryMatchAt text j = none := by
  obtain ⟨hlen2, hle, hup, hb, ha⟩ := (tryMatchAt_eq_some_iff text i u).1 h
  have hw : isWordChar (charAt text (j - 1)) = true := by
    have hup' := hup (j - 1 - i) (by omega)
    rw [show i + (j - 1 - i) = j - 1 by omega] at hup'
    exact isWordChar_of_isUpperChar hup'
  have hj0 : ¬ (j = 0) := by omega
  simp [tryMatchAt, hw, hj0]

theorem tryMatchAt_none_of_ge (text : List Char) (i : Nat)
    (h : text.length ≤ i) : tryMatchAt text i = none := by
  have hnil : text.drop i = [] := List.drop_eq_nil_of_le h
  simp [tryMatchAt, hnil, upperRunLen]

theorem execFromFuel_eq (text : List Char) :
    ∀ fuel pos, text.length + 1 ≤ fuel + pos →
      execFromFuel text fuel pos =
        (List.range' pos (text.length + 1 - pos)).filterMap
          (fun j => (tryMatchAt text j).map (fun u => (j, u))) := by
  intro fuel
  induction fuel with
  | zero =>
    intro pos hp
    have h0 : text.length + 1 - pos = 0 := by omega
    simp [execFromFuel, h0]
  | succ fuel ih =>
    intro pos hp
    cases htm : tryMatchAt text pos with
    | some u =>
      obtain ⟨h2, hle, _, _, _⟩ := (tryMatchAt_eq_some_iff text pos u).1 htm
      have hinner : (List.range' (pos + 1) (u - 1)).filterMap
          (fun j => (tryMatchAt text j).map (fun u => (j, u))) = [] := by
        rw [List.filterMap_eq_nil_iff]
        intro a ha
        rw [List.mem_range'_1] at ha
        rw [tryMatchAt_none_of_inside text pos u a htm (by omega) (by omega)]
        rfl
      have hcount : text.length + 1 - pos
          = ((text.length + 1 - (pos + u)) + (u - 1)) + 1 := by omega
      have hpu : pos + 1 + (u - 1) = pos + u := by omega
      calc execFromFuel text (fuel + 1) pos
            = (pos, u) :: execFromFuel text fuel (pos + u) := by
              rw [execFromFuel, htm]
        _ = (pos, u) :: (List.range' (pos + u) (text.length + 1 - (pos + u))).filterMap
              (fun j => (tryMatchAt text j).map (fun u => (j, u))) := by
              rw [ih (pos + u) (by omega)]
        _ = (List.range' pos (text.length + 1 - pos)).filterMap
              (fun j => (tryMatchAt text j).map (fun u => (j, u))) := by
              rw [hcount, List.range'_succ,
                ← List.range'_append_1 (pos + 1) (u - 1) (text.length + 1 - (pos + u)),
                hpu, List.filterMap_cons, htm, List.filterMap_append, hinner]
              rfl
    | none =>
      by_cases hpos : pos < text.length
      · rw [execFromFuel, htm, if_pos hpos]
        have hsp : text.length + 1 - pos = (text.length + 1 - (pos + 1)) + 1 := by
          omega
        rw [hsp, List.range'_succ, List.filterMap_cons, htm]
        exact ih (pos + 1) (by omega)
      · rw [execFromFuel, htm, if_neg hpos]
        rcases Nat.lt_or_ge text.length pos with hgt | hge
        · have h0 : text.length + 1 - pos = 0 := by omega
          simp [h0]
        · have hpe : pos = text.length := by omega
          subst hpe
          have h1 : text.length + 1 - text.length = 1 := by omega
          rw [h1, List.range'_succ]
          simp [htm]

theorem regexExecAll_eq (text : List Char) :
    regexExecAll text =
      (List.range' 0 (text.length + 1)).filterMap
        (fun j => (tryMatchAt text j).map (fun u => (j, u))) := by
  rw [regexExecAll, execFromFuel_eq text (text.length + 1) 0 (by omega)]
  simp

theorem mem_regexExecAll (text : List Char) (i len : Nat) :
    (i, len) ∈ regexExecAll text ↔ specIsMatch text i len := by
  rw [regexExecAll_eq]
  simp only [List.mem_filterMap, List.mem_range'_1, Option.map_eq_some']
  constructor
  · rintro ⟨j, hjr, u, hu, heq⟩
    cases heq
    exact (tryMatchAt_eq_some_iff text i len).1 hu
  · intro hs
    have hlt : i < 0 + (text.length + 1) := by
      obtain ⟨h2, hle, _, _, _⟩ := hs
      omega
    exact ⟨i, ⟨by omega, hlt⟩, len, (tryMatchAt_eq_some_iff text i len).2 hs, rfl⟩

theorem regexExecAll_pairwise (text : List Char) :
    (regexExecAll text).Pairwise (fun p q => p.1 < q.1 ∧ p.1 + p.2 ≤ q.1) := by
  rw [regexExecAll_eq]
  apply List.Pairwise.filterMap
  case p => exact List.pairwise_lt_range' 0 (text.length + 1) 1 (by omega)
  intro a b hab c hc d hd
  simp only [Option.mem_def, Option.map_eq_some'] at hc hd
  obtain ⟨u, hu, hcu⟩ := hc
  obtain ⟨v, hv, hdv⟩ := hd
  subst hcu
  subst hdv
  refine ⟨hab, ?_⟩
  by_contra hcon
  push_neg at hcon
  rw [tryMatchAt_none_of_inside text a u b hu hab (by omega)] at hv
  exact absurd hv (by simp)

theorem diagnosticsLoop_eq (hasRI : Bool) (uri : String) (text : List Char)
    (cap : Int) :
    ∀ (ms : List (Nat × Nat)) (p : Int),
      diagnosticsLoop hasRI uri text cap p ms =
        (ms.take (cap - p).toNat).map (mkDiagnostic hasRI uri text) := by
  intro ms
  induction ms with
  | nil => intro p; simp [diagnosticsLoop]
  | cons m ms ih =>
    intro p
    by_cases h : p < cap
    · have ht : (cap - p).toNat = (cap - (p + 1)).toNat + 1 := by omega
      simp [diagnosticsLoop, h, ht, ih]
    · have ht : (cap - p).toNat = 0 := by omega
      simp [diagnosticsLoop, h, ht]

theorem validateTaclDocument_eq (hasRI : Bool) (uri : String)
    (settings : ExampleSettings) (text : List Char) :
    validateTaclDocument hasRI uri settings text =
      ((regexExecAll text).take settings.maxNumberOfProblems.toNat).map
        (mkDiagnostic hasRI uri text) := by
  rw [validateTaclDocument, diagnosticsLoop_eq]
  norm_num

/-- C1: for every document text and settings, the validator emits exactly
one diagnostic per maximal run of two-or-more uppercase letters bounded by
word boundaries (`specIsMatch`), in left-to-right order and without
overlaps, truncated to the first `settings.maxNumberOfProblems` runs; each
diagnostic carries severity Warning, the range of the matched run, the
message `"<TOKEN> is all uppercase. Can you please fix that"`, and source
`"ex"`; runs beyond the cap produce no diagnostics. -/
theorem validateTaclDocument_matches_spec (hasRI : Bool) (uri : String)
    (settings : ExampleSettings) (text : List Char) :
    validateTaclDocument hasRI uri settings text =
      ((regexExecAll text).take settings.maxNumberOfProblems.toNat).map
        (mkDiagnostic hasRI uri text)
    ∧ (∀ i len, (i, len) ∈ regexExecAll text ↔ specIsMatch text i len)
    ∧ (regexExecAll text).Pairwise (fun p q => p.1 < q.1 ∧ p.1 + p.2 ≤ q.1)
    ∧ ∀ m ∈ regexExecAll text,
        (mkDiagnostic hasRI uri text m).severity = DiagnosticSeverity.Warning
      ∧ (mkDiagnostic hasRI uri text m).rangeStart = m.1
      ∧ (mkDiagnostic hasRI uri text m).rangeEnd = m.1 + m.2
      ∧ (mkDiagnostic hasRI uri text m).message =
          String.mk ((text.drop m.1).take m.2) ++
            " is all uppercase. Can you please fix that"
      ∧ (mkDiagnostic hasRI uri text m).source = "ex" := by
  refine ⟨validateTaclDocument_eq hasRI uri settings text,
    mem_regexExecAll text, regexExecAll_pairwise text, ?_⟩
  intro m _
  exact ⟨rfl, rfl, rfl, rfl, rfl⟩

/-- C3: on the text "The API returns OK" with the default settings
(cap 1000) the validator returns exactly two diagnostics: the first for
the token "API" at offsets 4 to 7 and the second for the token "OK" at
offsets 16 to 18, in that order, both with severity Warning and source
"ex". -/
theorem validateTaclDocument_example (hasRI : Bool) (uri : String) :
    (validateTaclDocument hasRI uri defaultSettings
        "The API returns OK".toList).map
      (fun d => (d.rangeStart, d.rangeEnd, d.severity, d.message, d.source)) =
    [(4, 7, DiagnosticSeverity.Warning,
        "API is all uppercase. Can you please fix that", "ex"),
     (16, 18, DiagnosticSeverity.Warning,
        "OK is all uppercase. Can you please fix that", "ex")] := by
  rfl

/-- C4: validation is deterministic and idempotent — two validation runs
on the same unchanged text with the same settings return identical
diagnostic lists (same ranges, same messages, same order). -/
theorem validateTaclDocument_idempotent (hasRI : Bool) (uri : String)
    (s₁ s₂ : ExampleSettings) (t₁ t₂ : List Char)
    (hs : s₁ = s₂) (ht : t₁ = t₂) :
    validateTaclDocument hasRI uri s₁ t₁ = validateTaclDocument hasRI uri s₂ t₂ := by
  rw [hs, ht]

theorem validateTaclDocument_idempotent_witness :
    validateTaclDocument false "file:a.tacl" ⟨1000⟩ "AA bb CC".toList =
      validateTaclDocument false "file:a.tacl" ⟨1000⟩ "AA bb CC".toList :=
  validateTaclDocument_idempotent false "file:a.tacl" ⟨1000⟩ ⟨1000⟩
    "AA bb CC".toList "AA bb CC".toList rfl rfl

/-- C5: with `maxNumberOfProblems = 0` the validator returns the empty
diagnostic list for every document text. -/
theorem validateTaclDocument_cap_zero (hasRI : Bool) (uri : String)
    (text : List Char) :
    validateTaclDocument hasRI uri ⟨0⟩ text = [] := by
  rw [validateTaclDocument_eq]
  simp

/-- C7: when settings resolution yields no value, the cap falls back to
the fixed constant 1000 (`defaultSettings`), and validation proceeds
exactly as the ordinary total validation pass with cap 1000 — the
situation is never fatal. -/
theorem settings_resolution_defaults_to_1000 :
    (updateGlobalSettings none).maxNumberOfProblems = 1000
  ∧ (∀ (cached : Option ExampleSettings) (fetched : ExampleSettings),
      getDocumentSettings false (updateGlobalSettings none) cached fetched
        = defaultSettings)
  ∧ (∀ (hasRI : Bool) (uri : String) (text : List Char)
      (cached : Option ExampleSettings) (fetched : ExampleSettings),
      validateTaclDocument hasRI uri
          (getDocumentSettings false (updateGlobalSettings none) cached fetched)
          text
        = validateTaclDocument hasRI uri defaultSettings text) :=
  ⟨rfl, fun _ _ => rfl, fun _ _ _ _ _ => rfl⟩

/-- `CompletionItemKind` constructors used by the server's completion
list (the protocol enum has further members the source never uses). -/
inductive CompletionItemKind where
  | Property
  | Function
  | Class
  | Variable
deriving DecidableEq, Repr

/-- `CompletionItem`: label, UI kind, the numeric `data` id linking to the
keyword table, and the lazily-filled `detail`/`documentation` fields
(absent — JavaScript `undefined` — is `none`). -/
structure CompletionItem where
  label : String
  kind : CompletionItemKind
  data : Int
  detail : Option String := none
  documentation : Option String := none
deriving DecidableEq, Repr

/-- One row of the keyword table `keyword.json` (the parts read by
`connection.onCompletionResolve`). -/
structure KeywordEntry where
  detail : String
  documentation : String
deriving DecidableEq, Repr

/-- A cursor position request, `TextDocumentPositionParams`. -/
structure TextDocumentPositionParams where
  uri : String
  line : Nat
  character : Nat
deriving DecidableEq, Repr

/-- JavaScript array indexing `keywordDes[count]` with an integer index:
`undefined` (here `none`) when the index is negative or at least the
array length. -/
def arrayGet (l : List KeywordEntry) (i : Int) : Option KeywordEntry :=
  if 0 ≤ i then l.get? i.toNat else none

/-- `connection.onCompletionResolve`: look up `keywordDes[item.data - 1]`
and copy its `detail` and `documentation` onto the item.  When the row
does not exist, the JavaScript code dereferences `undefined` and throws a
`TypeError`, which the protocol layer surfaces as an error response;
this is modelled as `Except.error`. -/
def onCompletionResolve (keywordDes : List KeywordEntry)
    (item : CompletionItem) : Except String CompletionItem :=
  match arrayGet keywordDes (item.data - 1) with
  | some temp =>
      Except.ok { item with detail := some temp.detail,
                            documentation := some temp.documentation }
  | none =>
      Except.error "TypeError: cannot read properties of undefined"

/-- `connection.onCompletion`: ignores the position parameter and returns
the fixed list of TACL completion items. -/
def onCompletion (_textDocumentPosition : TextDocumentPositionParams) :
    List CompletionItem :=
  [ { label := "Given", kind := CompletionItemKind.Property, data := 1 },
    { label := "actions", kind := CompletionItemKind.Property, data := 2 },
    { label := "Then", kind := CompletionItemKind.Property, data := 3 },
    { label := "And", kind := CompletionItemKind.Property, data := 4 },
    { label := "do", kind := CompletionItemKind.Function, data := 5 },
    { label := "click", kind := CompletionItemKind.Class, data := 6 },
    { label := "type", kind := CompletionItemKind.Function, data := 7 },
    { label := "check", kind := CompletionItemKind.Function, data := 8 },
    { label := "uncheck", kind := CompletionItemKind.Function, data := 9 },
    { label := "fill", kind := CompletionItemKind.Function, data := 10 },
    { label := "assert", kind := CompletionItemKind.Property, data := 11 },
    { label := "press", kind := CompletionItemKind.Function, data := 12 },
    { label := "double_click", kind := CompletionItemKind.Function, data := 13 },
    { label := "name", kind := CompletionItemKind.Variable, data := 14 },
    { label := "value", kind := CompletionItemKind.Variable, data := 15 },
    { label := "description", kind := CompletionItemKind.Variable, data := 16 },
    { label := "scenarios", kind := CompletionItemKind.Variable, data := 17 },
    { label := "steps", kind := CompletionItemKind.Variable, data := 18 },
    { label := "focus", kind := CompletionItemKind.Function, data := 19 },
    { label := "enabled", kind := CompletionItemKind.Variable, data := 20 },
    { label := "empty", kind := CompletionItemKind.Variable, data := 21 },
    { label := "editable", kind := CompletionItemKind.Variable, data := 22 },
    { label := "hidden", kind := CompletionItemKind.Variable, data := 23 },
    { label := "visible", kind := CompletionItemKind.Variable, data := 24 },
    { label := "available", kind := CompletionItemKind.Variable, data := 25 },
    { label := "empty", kind := CompletionItemKind.Variable, data := 26 },
    { label := "contains", kind := CompletionItemKind.Variable, data := 27 },
    { label := "title", kind := CompletionItemKind.Variable, data := 28 },
    { label := "checked", kind := CompletionItemKind.Function, data := 29 } ]

/-- C8: `onCompletion` ignores the cursor position entirely — any two
requests get the same fixed ordered list — the `data` ids of the items
are the sequential integers 1 through 29 in order, and the duplicate
label "empty" is preserved as-is at the two distinct ids 21 and 26. -/
theorem onCompletion_fixed_list (p q : TextDocumentPositionParams) :
    onCompletion p = onCompletion q
  ∧ (onCompletion p).map (fun it => it.data)
      = (List.range 29).map (fun n => (n : Int) + 1)
  ∧ ((onCompletion p).filter (fun it => it.label == "empty")).map
      (fun it => it.data) = [21, 26] :=
  ⟨rfl, rfl, rfl⟩

/-- C2: resolving a completion item with `data = 1` against a non-empty
keyword table returns the item with `detail` and `documentation` set to
the fields of the table's first row; when the `data` id exceeds the table
size, resolution fails with an explicit error; and a successful resolve
never returns an item whose `detail` or `documentation` is undefined. -/
theorem onCompletionResolve_spec (kw : List KeywordEntry)
    (it₁ it₂ : CompletionItem) (h1 : it₁.data = 1) (hkw : 0 < kw.length)
    (h2 : (kw.length : Int) < it₂.data) :
    (∃ e, kw.get? 0 = some e ∧
      onCompletionResolve kw it₁ =
        Except.ok { it₁ with detail := some e.detail,
                             documentation := some e.documentation })
  ∧ (∃ msg, onCompletionResolve kw it₂ = Except.error msg)
  ∧ (∀ (kw' : List KeywordEntry) (it it' : CompletionItem),
      onCompletionResolve kw' it = Except.ok it' →
      it'.detail ≠ none ∧ it'.documentation ≠ none) := by
  refine ⟨?_, ?_, ?_⟩
  · have h0 : arrayGet kw (it₁.data - 1) = kw.get? 0 := by
      rw [h1]; rfl
    cases hg : kw.get? 0 with
    | none =>
      rw [List.get?_eq_none] at hg
      omega
    | some e =>
      refine ⟨e, rfl, ?_⟩
      rw [onCompletionResolve, h0, hg]
  · have hnone : arrayGet kw (it₂.data - 1) = none := by
      unfold arrayGet
      split
      case isTrue hge => exact List.get?_eq_none.2 (by omega)
      case isFalse => rfl
    exact ⟨_, by rw [onCompletionResolve, hnone]⟩
  · intro kw' it it' h
    unfold onCompletionResolve at h
    cases harr : arrayGet kw' (it.data - 1) with
    | some temp =>
      rw [harr] at h
      injection h with h'
      subst h'
      exact ⟨by simp, by simp⟩
    | none =>
      rw [harr] at h
      exact absurd h (by simp)

theorem onCompletionResolve_spec_witness :
    onCompletionResolve [{ detail := "d1", documentation := "doc1" }]
        { label := "Given", kind := CompletionItemKind.Property, data := 1 } =
      Except.ok { label := "Given", kind := CompletionItemKind.Property,
                  data := 1, detail := some "d1", documentation := some "doc1" }
  ∧ ∃ msg, onCompletionResolve [{ detail := "d1", documentation := "doc1" }]
        { label := "do", kind := CompletionItemKind.Function, data := 5 } =
      Except.error msg := by
  have h := onCompletionResolve_spec
    [{ detail := "d1", documentation := "doc1" }]
    { label := "Given", kind := CompletionItemKind.Property, data := 1 }
    { label := "do", kind := CompletionItemKind.Function, data := 5 }
    rfl (by decide) (by decide)
  obtain ⟨⟨e, he, hres⟩, herr, _⟩ := h
  refine ⟨?_, herr⟩
  have he' : e = { detail := "d1", documentation := "doc1" } := by
    have := he
    simp only [List.get?_cons_zero, Option.some.injEq] at this
    exact this.symm
  rw [hres, he']

/-- C9: `onCompletionResolve` only fills in `detail` and `documentation`:
whenever it returns an item, that item's `label`, `kind` and `data` are
unchanged from the input item. -/
theorem onCompletionResolve_frame (kw : List KeywordEntry)
    (it it' : CompletionItem) (h : onCompletionResolve kw it = Except.ok it') :
    it'.label = it.label ∧ it'.kind = it.kind ∧ it'.data = it.data := by
  unfold onCompletionResolve at h
  cases harr : arrayGet kw (it.data - 1) with
  | some temp =>
    rw [harr] at h
    injection h with h'
    subst h'
    exact ⟨rfl, rfl, rfl⟩
  | none =>
    rw [harr] at h
    exact absurd h (by simp)

theorem onCompletionResolve_frame_witness :
    ({ label := "Then", kind := CompletionItemKind.Property, data := 1,
       detail := some "d2", documentation := some "doc2" } : CompletionItem).label
      = ({ label := "Then", kind := CompletionItemKind.Property,
           data := 1 } : CompletionItem).label
  ∧ ({ label := "Then", kind := CompletionItemKind.Property, data := 1,
       detail := some "d2", documentation := some "doc2" } : CompletionItem).kind
      = ({ label := "Then", kind := CompletionItemKind.Property,
           data := 1 } : CompletionItem).kind
  ∧ ({ label := "Then", kind := CompletionItemKind.Property, data := 1,
       detail := some "d2", documentation := some "doc2" } : CompletionItem).data
      = ({ label := "Then", kind := CompletionItemKind.Property,
           data := 1 } : CompletionItem).data :=
  onCompletionResolve_frame [{ detail := "d2", documentation := "doc2" }]
    { label := "Then", kind := CompletionItemKind.Property, data := 1 }
    { label := "Then", kind := CompletionItemKind.Property, data := 1,
      detail := some "d2", documentation := some "doc2" }
    (by rfl)

/-- One row of the hover table `hover.json` (the parts read by
`provideHover`). -/
structure HoverEntry where
  label : String
  documentation : String
deriving DecidableEq, Repr

/-- The `provideHover` callback registered in `extension.ts`: starting
from the empty content, it walks the whole hover table with `forEach` and,
at each entry whose label equals the word under the cursor, overwrites the
content with that entry's documentation; the final content is returned
(wrapped as the hover contents).  The word extraction
(`getWordRangeAtPosition`) and the directory-classification logging are
editor-API effects outside the lookup, so the function is parameterised
by the extracted word. -/
def provideHover (hoverDes : List HoverEntry) (word : String) : String :=
  hoverDes.foldl
    (fun return_content element =>
      if element.label == word then element.documentation else return_content)
    ""

theorem foldl_overwrite_eq_find_reverse (word : String) :
    ∀ (l : List HoverEntry) (acc : String),
      l.foldl
          (fun return_content element =>
            if element.label == word then element.documentation
            else return_content)
          acc
        = match l.reverse.find? (fun e => e.label == word) with
          | some e => e.documentation
          | none => acc := by
  intro l
  induction l with
  | nil => intro acc; rfl
  | cons x xs ih =>
    intro acc
    rw [List.foldl_cons, ih, List.reverse_cons, List.find?_append]
    cases hfind : xs.reverse.find? (fun e => e.label == word) with
    | some e => rfl
    | none =>
      by_cases hx : x.label == word
      · simp [hx]
      · simp [hx]

theorem find_eq_head_filter (p : HoverEntry → Bool) :
    ∀ m : List HoverEntry, m.find? p = (m.filter p).head? := by
  intro m
  induction m with
  | nil => rfl
  | cons x xs ih =>
    by_cases hx : p x
    · rw [List.find?_cons_of_pos _ hx, List.filter_cons_of_pos hx]
      rfl
    · rw [List.find?_cons_of_neg _ hx, List.filter_cons_of_neg hx, ih]

theorem find_reverse_eq_getLast_filter (word : String) (l : List HoverEntry) :
    l.reverse.find? (fun e => e.label == word)
      = (l.filter (fun e => e.label == word)).getLast? := by
  rw [List.getLast?_eq_head?_reverse, ← List.filter_reverse,
    find_eq_head_filter]

/-- C6: if some hover-table entry's label equals (case-sensitively) the
word under the cursor, `provideHover` returns the documentation string of
such an entry; if no entry's label equals the word, it returns the empty
content — a miss, not an error. -/
theorem provideHover_spec (table : List HoverEntry) (word : String) :
    ((∃ e ∈ table, e.label = word) →
      ∃ e ∈ table, e.label = word ∧ provideHover table word = e.documentation)
  ∧ ((∀ e ∈ table, e.label ≠ word) → provideHover table word = "") := by
  constructor
  · rintro ⟨e0, he0, hl0⟩
    cases hfind : table.reverse.find? (fun e => e.label == word) with
    | none =>
      rw [List.find?_eq_none] at hfind
      exact absurd (by simpa using hl0) (hfind e0 (by simpa using he0))
    | some e =>
      refine ⟨e, ?_, ?_, ?_⟩
      · have := List.mem_of_find?_eq_some hfind
        simpa using this
      · have := List.find?_some hfind
        simpa using this
      · rw [provideHover, foldl_overwrite_eq_find_reverse, hfind]
  · intro hmiss
    have hfind : table.reverse.find? (fun e => e.label == word) = none := by
      rw [List.find?_eq_none]
      intro e he
      simpa using hmiss e (by simpa using he)
    rw [provideHover, foldl_overwrite_eq_find_reverse, hfind]

theorem provideHover_spec_witness :
    (∃ e ∈ ([⟨"visible", "asserts the element is visible"⟩] : List HoverEntry),
      e.label = "visible" ∧
        provideHover [⟨"visible", "asserts the element is visible"⟩] "visible"
          = e.documentation)
  ∧ provideHover [⟨"visible", "asserts the element is visible"⟩] "zzzNotAWord"
      = "" := by
  have h := provideHover_spec
    [⟨"visible", "asserts the element is visible"⟩] "visible"
  have h2 := provideHover_spec
    [⟨"visible", "asserts the element is visible"⟩] "zzzNotAWord"
  exact ⟨h.1 ⟨⟨"visible", "asserts the element is visible"⟩, by decide, rfl⟩,
    h2.2 (by decide)⟩

/-- C10: when more than one hover-table entry's label equals the word
under the cursor, `provideHover` returns the documentation of the last
such entry in table order — each later match of the `forEach` scan
overwrites the earlier ones. -/
theorem provideHover_last_match (table : List HoverEntry) (word : String)
    (e : HoverEntry)
    (hmult : 1 < (table.filter (fun x => x.label == word)).length)
    (hlast : (table.filter (fun x => x.label == word)).getLast? = some e) :
    provideHover table word = e.documentation := by
  rw [provideHover, foldl_overwrite_eq_find_reverse,
    find_reverse_eq_getLast_filter, hlast]

theorem provideHover_last_match_witness :
    provideHover
        [⟨"empty", "the first empty entry"⟩, ⟨"other", "something else"⟩,
         ⟨"empty", "the second empty entry"⟩] "empty"
      = "the second empty entry" :=
  provideHover_last_match
    [⟨"empty", "the first empty entry"⟩, ⟨"other", "something else"⟩,
     ⟨"empty", "the second empty entry"⟩] "empty"
    ⟨"empty", "the second empty entry"⟩ (by decide) (by decide)
